import Mathlib

/-!
Verification of the wheelspin repository core logic: shallow embedding of
the weighted selector with cooldown, the wheel-stop angle computation, the
history ledger, the segment builder and the distribution orchestrator
payout decision, followed by theorems about them.  Machine numbers of the
source are modelled by exact rationals; the two injected random draws
(`Math.random()` in `selectWinner` and `calculateWinningDegree`) are
explicit parameters.
-/

namespace WheelSpin

/-- A wheel segment as built by `processHoldersForWheel`
(src/services/helius.js).  The fields not used by any claim
(`id`, `displayAddress`, `color`) are omitted. -/
structure Segment where
  address : String
  amount : ℚ
  percentage : ℚ
deriving DecidableEq, Repr

/-- `WINNER_COOLDOWN_SPINS` from src/services/wheelLogic.js line 15. -/
def WINNER_COOLDOWN_SPINS : Nat := 2

/-- The trimming loop of `selectWinner` (wheelLogic.js lines 128-130):
`while (recentWinners.length > WINNER_COOLDOWN_SPINS) recentWinners.shift()`
removes from the front until at most `WINNER_COOLDOWN_SPINS` remain. -/
def trimCooldown (l : List String) : List String :=
  l.drop (l.length - WINNER_COOLDOWN_SPINS)

/-- Total weight of a segment list: `eligibleSegments.reduce((sum, seg) =>
sum + seg.amount, 0)` (wheelLogic.js line 103). -/
def totalWeight (l : List Segment) : ℚ :=
  (l.map Segment.amount).sum

/-- The cumulative-weight walk of `selectWinner` (wheelLogic.js lines
109-117): accumulate amounts and return the first segment whose cumulative
weight is at least the draw `r`; `none` when the walk finds no segment. -/
def findByCumulative (r : ℚ) (cum : ℚ) : List Segment → Option Segment
  | [] => none
  | seg :: rest =>
    let c := cum + seg.amount
    if r ≤ c then some seg else findByCumulative r c rest

/-- The eligible list of `selectWinner` (wheelLogic.js lines 93-100):
segments whose address is not on cooldown; the full list when the filter
leaves nothing. -/
def eligibleOf (segments : List Segment) (recentWinners : List String) : List Segment :=
  let f := segments.filter (fun seg => !(recentWinners.contains seg.address))
  if f.isEmpty then segments else f

/-- `selectWinner` (src/services/wheelLogic.js lines 87-135).  The module
state `recentWinners` is passed in and the updated state returned; the
draw `Math.random()` is the explicit parameter `r`, multiplied by the
total weight exactly as on line 106.  Returns `none` for an empty segment
list (line 89). -/
def selectWinner (segments : List Segment) (recentWinners : List String) (r : ℚ) :
    Option Segment × List String :=
  if segments.isEmpty then (none, recentWinners)
  else
    let reset := (segments.filter (fun seg => !(recentWinners.contains seg.address))).isEmpty
    let eligibleSegments := eligibleOf segments recentWinners
    let recent1 := if reset then [] else recentWinners
    let random := r * totalWeight eligibleSegments
    let winner0 := findByCumulative random 0 eligibleSegments
    let winner : Option Segment :=
      match winner0 with
      | some w => some w
      | none => eligibleSegments.getLast?
    match winner with
    | none => (none, recent1)
    | some w => (some w, trimCooldown (recent1 ++ [w.address]))

/-- A start/end/center triple of a segment arc, as built by the `map` in
`calculateWinningDegree` (wheelLogic.js lines 148-157).  The source field
`end` is named `stop` here because `end` is a Lean keyword. -/
structure SegDeg where
  start : ℚ
  stop : ℚ
  center : ℚ
deriving DecidableEq, Repr

/-- The cumulative-degree construction of `calculateWinningDegree`
(wheelLogic.js lines 147-157): each segment covers
`(percentage / 100) * 360` degrees starting where the previous one ended. -/
def segmentDegrees (cur : ℚ) : List Segment → List SegDeg
  | [] => []
  | seg :: rest =>
    let size := seg.percentage / 100 * 360
    ⟨cur, cur + size, cur + size / 2⟩ :: segmentDegrees (cur + size) rest

/-- `calculateWinningDegree` (src/services/wheelLogic.js lines 141-166).
The cosmetic draw `Math.random()` is the explicit parameter `u`; the
winner index is an integer so the `winnerIndex < 0` guard of line 142 is
representable.  Indexing `segmentDegrees[winnerIndex]` past the end of the
array would dereference `undefined` and throw in the source, embedded here
as `none`. -/
def calculateWinningDegree (segments : List Segment) (winnerIndex : ℤ) (u : ℚ) :
    Option ℚ :=
  if segments.isEmpty ∨ winnerIndex < 0 then some 0
  else
    match (segmentDegrees 0 segments).get? winnerIndex.toNat with
    | none => none
    | some wd =>
      let size := wd.stop - wd.start
      let randomOffset := (u - 1/2) * size * (6/10)
      some (wd.center + randomOffset)

/-- `MAX_HISTORY` from src/services/wheelLogic.js line 11. -/
def MAX_HISTORY : Nat := 50

/-- A spin history record as built by `recordSpin` (wheelLogic.js lines
172-185); the timestamp and settlement-url fields play no part in any
claim and are omitted, `distribution` starts out null. -/
structure SpinRecord where
  id : Nat
  winnerAddress : String
  distribution : Option ℚ
deriving DecidableEq, Repr

/-- `recordSpin` (src/services/wheelLogic.js lines 171-196).  The module
state `spinHistory` (newest first) is passed in and returned together with
the created record: the record gets `id = spinHistory.length + 1`, is
unshifted onto the front, and the oldest record is popped from the back
when the capacity `MAX_HISTORY` is exceeded. -/
def recordSpin (winner : Segment) (spinHistory : List SpinRecord) :
    SpinRecord × List SpinRecord :=
  let record : SpinRecord :=
    { id := spinHistory.length + 1, winnerAddress := winner.address, distribution := none }
  let h1 := record :: spinHistory
  let h2 := if MAX_HISTORY < h1.length then h1.dropLast else h1
  (record, h2)

/-- A fixed segment used to drive the iterated-append computation below. -/
def dummySegment : Segment := ⟨"w", 1, 100⟩

/-- The ledger obtained from `n` successive `recordSpin` appends starting
from an empty history. -/
def appendMany : Nat → List SpinRecord
  | 0 => []
  | n + 1 => (recordSpin dummySegment (appendMany n)).2

/-- The sequence id assigned by the append that follows `n` earlier
appends (so append number `n + 1`). -/
def idOfAppend (n : Nat) : Nat :=
  (recordSpin dummySegment (appendMany n)).1.id

/-- A raw holder row as consumed by `processHoldersForWheel`
(src/services/helius.js): the token-account owner and its amount. -/
structure Holder where
  owner : String
  amount : ℚ
deriving DecidableEq, Repr

/-- `EXCLUDED_ADDRESSES` from src/services/helius.js lines 90-96: known
liquidity pool and DEX addresses excluded from the wheel. -/
def EXCLUDED_ADDRESSES : List String :=
  ["5Q544fKrFoe6tsEbD7S8EmxGTJYAKtTVhAW5Q5pge4j1",
   "675kPX9MHTjS2zt1qfr1NYHuzeLXfQM9H24wFSUt1Mp8",
   "CAMMCzo5YL8w4VFF8KVHrK22GGUsp5VTaW7grrKgrWqK",
   "39azUYFWPz3VHgKCf3VChUwbpURdCHRxjWVowf5jUJjg",
   "So11111111111111111111111111111111111111112"]

/-- Modelled from the spec: `setCreatorExclusion` is imported and called
by src/server.js (lines 8 and 321) but is missing from the helius module
in this snapshot (its `module.exports` at src/services/helius.js lines
224-229 does not provide it).  Per the spec the operator address is
"added dynamically once the operator identity is known" to the fixed
denylist, so the exclusion set after operator initialization is the fixed
list plus the operator address when one is known. -/
def exclusionSet (creator : Option String) : List String :=
  EXCLUDED_ADDRESSES ++ creator.toList

/-- The eligible holders of `processHoldersForWheel` (helius.js lines
105-107): drop the first (largest) holder, then drop every holder whose
owner is in the exclusion set. -/
def eligibleHoldersOf (excluded : List String) (holders : List Holder) : List Holder :=
  (holders.drop 1).filter (fun h => !(excluded.contains h.owner))

/-- `processHoldersForWheel` (src/services/helius.js lines 98-130),
parameterized by the exclusion set (the module-level `EXCLUDED_ADDRESSES`
array, possibly extended with the operator address).  Returns the segment
list and the total eligible supply. -/
def processHoldersForWheel (excluded : List String) (holders : List Holder) :
    List Segment × ℚ :=
  if holders.isEmpty then ([], 0)
  else
    let eligibleHolders := eligibleHoldersOf excluded holders
    if eligibleHolders.isEmpty then ([], 0)
    else
      let totalSupply := (eligibleHolders.map Holder.amount).sum
      let segments := eligibleHolders.map (fun h =>
        { address := h.owner, amount := h.amount,
          percentage := h.amount / totalSupply * 100 : Segment })
      (segments, totalSupply)

/-- `MINIMUM_PAYOUT` from the orchestrator revision src/unnamed/part_001
line 752: the guaranteed minimum payout in SOL. -/
def MINIMUM_PAYOUT : ℚ := 2/1000

/-- The payout decision step of `claimAndDistribute` (src/unnamed/part_001
lines 748-771): given the claimed amount and the keep percentage, return
the amount to distribute and whether it is funded by the claimed fees
(the source variable `fromFees`).  Claims at or below `0.001` pay the
guaranteed minimum from the operator balance; otherwise the claim minus
the kept share minus the `0.003` hop-fee reserve is paid, clamped up to
the guaranteed minimum (and then flagged as not funded by fees). -/
def decidePayout (claimedAmount : ℚ) (keepPercentage : ℚ) : ℚ × Bool :=
  if claimedAmount ≤ 1/1000 then (MINIMUM_PAYOUT, false)
  else
    let keepAmount := claimedAmount * (keepPercentage / 100)
    let distributeAmount := claimedAmount - keepAmount - 3/1000
    if distributeAmount < MINIMUM_PAYOUT then (MINIMUM_PAYOUT, false)
    else (distributeAmount, true)

/-- `addToTotalFees` (src/services/wheelLogic.js lines 72-75): add an
amount to the persistent cumulative total. -/
def addToTotalFees (total amount : ℚ) : ℚ :=
  total + amount

/-- One observable program operation affecting (or reading) the cumulative
distributed total, as driven by `performSpin` in src/server.js: the
completion of a distribution attempt with its `success` flag and
`distributed` amount, a spin whose distribution phase never ran, or a pure
read. -/
inductive ServerOp where
  | distributionDone (success : Bool) (distributed : ℚ)
  | spinOnly
  | readState
deriving DecidableEq, Repr

/-- The effect of one operation on the cumulative total: src/server.js
lines 206-212 call `addToTotalFees(distributionResult.distributed)` only
when `distributionResult.success && distributionResult.distributed > 0`;
every other path leaves the total untouched. -/
def applyOp (total : ℚ) : ServerOp → ℚ
  | .distributionDone success d =>
    if success = true ∧ 0 < d then addToTotalFees total d else total
  | .spinOnly => total
  | .readState => total

/-- The cumulative total after a sequence of operations. -/
def runOps (total : ℚ) (ops : List ServerOp) : ℚ :=
  ops.foldl applyOp total

/-! ## Helper lemmas -/

lemma findByCumulative_mem {r : ℚ} :
    ∀ {l : List Segment} {c : ℚ} {s : Segment}, findByCumulative r c l = some s → s ∈ l := by
  intro l
  induction l with
  | nil => intro c s h; simp [findByCumulative] at h
  | cons a t ih =>
    intro c s h
    rw [findByCumulative] at h
    by_cases hc : r ≤ c + a.amount
    · rw [if_pos hc] at h
      rw [← Option.some.inj h]
      exact List.mem_cons_self a t
    · rw [if_neg hc] at h
      exact List.mem_cons_of_mem a (ih h)

lemma mem_of_getLast_eq {α : Type} {l : List α} {a : α} (h : l.getLast? = some a) : a ∈ l := by
  obtain ⟨hne, rfl⟩ := List.mem_getLast?_eq_getLast (by simpa using h)
  exact List.getLast_mem hne

lemma trimCooldown_length (l : List String) :
    (trimCooldown l).length ≤ WINNER_COOLDOWN_SPINS := by
  simp only [trimCooldown, List.length_drop, WINNER_COOLDOWN_SPINS]
  omega

lemma trimCooldown_append_getLast (l : List String) (x : String) :
    (trimCooldown (l ++ [x])).getLast? = some x := by
  unfold trimCooldown
  rw [List.drop_append_of_le_length
    (by simp only [List.length_append, List.length_singleton, WINNER_COOLDOWN_SPINS]; omega)]
  exact List.getLast?_concat _

lemma mem_trim_append_of_getLast {l : List String} {a : String} (x : String)
    (hlen : l.length ≤ WINNER_COOLDOWN_SPINS) (hla : l.getLast? = some a) :
    a ∈ trimCooldown (l ++ [x]) := by
  match l, hla with
  | [b], h =>
    have hb : b = a := Option.some.inj h
    subst hb
    simp [trimCooldown, WINNER_COOLDOWN_SPINS]
  | [b, c], h =>
    have hc : c = a := Option.some.inj h
    subst hc
    simp [trimCooldown, WINNER_COOLDOWN_SPINS]
  | b :: c :: d :: t, h =>
    exfalso
    simp only [WINNER_COOLDOWN_SPINS, List.length_cons] at hlen
    omega

lemma eligibleOf_ne_nil {segs : List Segment} (recent : List String) (hne : segs ≠ []) :
    eligibleOf segs recent ≠ [] := by
  unfold eligibleOf
  by_cases hf : (segs.filter (fun seg => !(recent.contains seg.address))).isEmpty
  · rwa [if_pos hf]
  · rw [if_neg hf]
    intro hnil
    rw [hnil] at hf
    simp at hf

lemma eligibleOf_subset {segs : List Segment} {recent : List String} {s : Segment}
    (h : s ∈ eligibleOf segs recent) : s ∈ segs := by
  unfold eligibleOf at h
  by_cases hf : (segs.filter (fun seg => !(recent.contains seg.address))).isEmpty
  · rwa [if_pos hf] at h
  · rw [if_neg hf] at h
    exact (List.mem_filter.mp h).1

lemma eligibleOf_of_filter_ne_nil {segs : List Segment} {recent : List String}
    (h : segs.filter (fun seg => !(recent.contains seg.address)) ≠ []) :
    eligibleOf segs recent = segs.filter (fun seg => !(recent.contains seg.address)) := by
  unfold eligibleOf
  rw [if_neg (by simpa [List.isEmpty_iff] using h)]

lemma not_mem_recent_of_mem_filter {segs : List Segment} {recent : List String} {s : Segment}
    (h : s ∈ segs.filter (fun seg => !(recent.contains seg.address))) :
    s.address ∉ recent := by
  have hp := (List.mem_filter.mp h).2
  simp only [Bool.not_eq_true', ← Bool.not_eq_true] at hp
  intro hmem
  exact hp (by simpa [List.elem_iff] using hmem)

/-- Characterization of a successful selection: for a non-empty segment
list, `selectWinner` returns a winner from the eligible list and pushes
its address onto the trimmed cooldown queue (which was reset first when
the cooldown filter left nothing). -/
lemma selectWinner_char (segs : List Segment) (recent : List String) (r : ℚ)
    (hne : segs ≠ []) :
    ∃ w,
      w ∈ eligibleOf segs recent ∧
      selectWinner segs recent r =
        (some w,
          trimCooldown
            ((if (segs.filter (fun seg => !(recent.contains seg.address))).isEmpty then []
              else recent) ++ [w.address])) ∧
      (findByCumulative (r * totalWeight (eligibleOf segs recent)) 0
          (eligibleOf segs recent) = none →
        (eligibleOf segs recent).getLast? = some w) ∧
      (∀ w0, findByCumulative (r * totalWeight (eligibleOf segs recent)) 0
          (eligibleOf segs recent) = some w0 → w = w0) := by
  have hE : segs.isEmpty = false := by
    cases segs with
    | nil => exact absurd rfl hne
    | cons a t => rfl
  have helne : eligibleOf segs recent ≠ [] := eligibleOf_ne_nil recent hne
  cases hFB : findByCumulative (r * totalWeight (eligibleOf segs recent)) 0
      (eligibleOf segs recent) with
  | some w =>
    refine ⟨w, findByCumulative_mem hFB, ?_, ?_, ?_⟩
    · simp only [selectWinner, hE, Bool.false_eq_true, if_false, hFB]
    · intro hnone
      exact Option.noConfusion hnone
    · intro w0 h0
      exact Option.some.inj h0
  | none =>
    have hlast : (eligibleOf segs recent).getLast? =
        some ((eligibleOf segs recent).getLast helne) :=
      List.getLast?_eq_getLast_of_ne_nil helne
    refine ⟨(eligibleOf segs recent).getLast helne, mem_of_getLast_eq hlast, ?_, ?_, ?_⟩
    · simp only [selectWinner, hE, Bool.false_eq_true, if_false, hFB, hlast]
    · intro _; exact hlast
    · intro w0 h0
      exact Option.noConfusion h0

lemma sum_map_amount_mul (l : List Holder) (c : ℚ) :
    (l.map (fun h => h.amount * c)).sum = (l.map Holder.amount).sum * c := by
  induction l with
  | nil => simp
  | cons a t ih => simp [ih]; ring

lemma applyOp_le (total : ℚ) (op : ServerOp) : total ≤ applyOp total op := by
  cases op with
  | distributionDone success d =>
    simp only [applyOp]
    by_cases hc : success = true ∧ 0 < d
    · rw [if_pos hc]
      unfold addToTotalFees
      linarith [hc.2]
    · rw [if_neg hc]
  | spinOnly => exact le_refl total
  | readState => exact le_refl total

lemma runOps_le (ops : List ServerOp) : ∀ total : ℚ, total ≤ runOps total ops := by
  induction ops with
  | nil => intro total; exact le_refl total
  | cons op rest ih =>
    intro total
    calc total ≤ applyOp total op := applyOp_le total op
    _ ≤ runOps (applyOp total op) rest := ih _
    _ = runOps total (op :: rest) := rfl

/-- Unfolded form of the payout decision (the source let-bindings
`keepAmount` and `distributeAmount` are substituted). -/
lemma decidePayout_eq (c k : ℚ) :
    decidePayout c k =
      if c ≤ 1/1000 then (MINIMUM_PAYOUT, false)
      else if c - c * (k / 100) - 3/1000 < MINIMUM_PAYOUT then (MINIMUM_PAYOUT, false)
      else (c - c * (k / 100) - 3/1000, true) := rfl

/-! ## Claims -/

/-- C1: in the distribution orchestrator payout decision (the
`claimAndDistribute` revision of src/unnamed/part_001, keep percentage 10,
so keepFraction 0.10), for every claimed amount: below the 0.001 threshold
the fixed guaranteed minimum 0.002 is paid and flagged as not funded by
fees; otherwise the payout is claimed times (1 minus keepFraction) minus
the reserved network fees 0.003, clamped up to the guaranteed minimum
(and then flagged as not funded by fees) when the candidate falls below
it. -/
theorem claim_C1_payout_decision (claimed : ℚ) :
    (claimed < 1/1000 → decidePayout claimed 10 = (MINIMUM_PAYOUT, false)) ∧
    (1/1000 ≤ claimed →
      (claimed * (1 - 10/100) - 3/1000 < MINIMUM_PAYOUT →
        decidePayout claimed 10 = (MINIMUM_PAYOUT, false)) ∧
      (MINIMUM_PAYOUT ≤ claimed * (1 - 10/100) - 3/1000 →
        decidePayout claimed 10 = (claimed * (1 - 10/100) - 3/1000, true))) := by
  have he : claimed - claimed * (10/100) - 3/1000 = claimed * (1 - 10/100) - 3/1000 := by
    ring
  refine ⟨fun h => ?_, fun h => ⟨fun hlow => ?_, fun hhigh => ?_⟩⟩
  · rw [decidePayout_eq, if_pos (le_of_lt h)]
  · rw [decidePayout_eq]
    by_cases hb : claimed ≤ 1/1000
    · rw [if_pos hb]
    · rw [if_neg hb, he, if_pos hlow]
  · have hb : ¬ claimed ≤ 1/1000 := by
      unfold MINIMUM_PAYOUT at hhigh
      intro hc
      nlinarith
    rw [decidePayout_eq, if_neg hb, he, if_neg (not_lt.mpr hhigh)]

/-- Witness for C1 at claimed = 1/2. -/
theorem claim_C1_payout_decision_witness :
    (1/1000 : ℚ) ≤ 1/2 ∧ (MINIMUM_PAYOUT ≤ (1/2 : ℚ) * (1 - 10/100) - 3/1000) ∧
    decidePayout (1/2) 10 = ((1/2 : ℚ) * (1 - 10/100) - 3/1000, true) :=
  ⟨by norm_num, by norm_num [MINIMUM_PAYOUT],
    ((claim_C1_payout_decision (1/2)).2 (by norm_num)).2 (by norm_num [MINIMUM_PAYOUT])⟩

/-- C7 counterexample: with claimed = 0.01 and keep percentage 10 the
orchestrator pays 0.006 funded by fees, not the guaranteed minimum 0.002
flagged as not funded by fees as the claim asserts. -/
theorem claim_C7_counterexample :
    decidePayout (1/100) 10 ≠ (MINIMUM_PAYOUT, false) ∧
    decidePayout (1/100) 10 = (3/500, true) := by
  have hpd : decidePayout (1/100) 10 = (3/500, true) := by
    rw [decidePayout_eq]
    norm_num [MINIMUM_PAYOUT]
  refine ⟨?_, hpd⟩
  rw [hpd]
  simp [MINIMUM_PAYOUT]

/-- C7 amended: with claimed = 0.01, keepFraction 0.10 and reserved fees
0.003, the payout candidate is 0.006, which is at least the guaranteed
minimum 0.002, so the final payout is 0.006 and it is funded by fees. -/
theorem claim_C7_amended :
    (1/100 : ℚ) * (1 - 10/100) - 3/1000 = 3/500 ∧
    MINIMUM_PAYOUT ≤ (3/500 : ℚ) ∧
    decidePayout (1/100) 10 = (3/500, true) := by
  refine ⟨by norm_num, by norm_num [MINIMUM_PAYOUT], ?_⟩
  rw [decidePayout_eq]
  norm_num [MINIMUM_PAYOUT]

/-- C2 counterexample: a candidate list whose total weight is zero does
not make selection fail; the single zero-weight candidate is returned as
the winner. -/
theorem claim_C2_counterexample :
    totalWeight [⟨"a", 0, 0⟩] = 0 ∧
    (selectWinner [⟨"a", 0, 0⟩] [] (1/2)).1 = some ⟨"a", 0, 0⟩ := by
  constructor
  · simp [totalWeight]
  · simp [selectWinner, eligibleOf, totalWeight, findByCumulative]

/-- C2 amended: `selectWinner` has no InvalidInput failure.  It returns no
winner exactly for the empty candidate list; when every candidate weight
is zero the draw value is zero and the head of the eligible list is
returned as the winner. -/
theorem claim_C2_amended (segs : List Segment) (recent : List String) (r : ℚ)
    (hne : segs ≠ []) (hz : ∀ seg ∈ segs, seg.amount = 0) :
    (selectWinner ([] : List Segment) recent r).1 = none ∧
    totalWeight (eligibleOf segs recent) = 0 ∧
    (selectWinner segs recent r).1 = (eligibleOf segs recent).head? := by
  have hzel : ∀ seg ∈ eligibleOf segs recent, seg.amount = 0 :=
    fun seg hmem => hz seg (eligibleOf_subset hmem)
  have htw : totalWeight (eligibleOf segs recent) = 0 := by
    unfold totalWeight
    apply List.sum_eq_zero
    intro x hx
    obtain ⟨seg, hseg, rfl⟩ := List.mem_map.mp hx
    exact hzel seg hseg
  refine ⟨rfl, htw, ?_⟩
  obtain ⟨w, hwmem, heq, hlast, hfound⟩ := selectWinner_char segs recent r hne
  rw [heq]
  obtain ⟨e, es, hel⟩ : ∃ e es, eligibleOf segs recent = e :: es := by
    cases helc : eligibleOf segs recent with
    | nil => exact absurd helc (eligibleOf_ne_nil recent hne)
    | cons e es => exact ⟨e, es, rfl⟩
  have hefst : findByCumulative (r * totalWeight (eligibleOf segs recent)) 0
      (eligibleOf segs recent) = some e := by
    have hea : e.amount = 0 := hzel e (by rw [hel]; exact List.mem_cons_self e es)
    rw [htw, mul_zero, hel]
    simp only [findByCumulative, hea]
    norm_num
  have : w = e := hfound e hefst
  rw [this, hel]
  rfl

/-- Witness for C2 amended at a single zero-weight candidate. -/
theorem claim_C2_amended_witness :
    (([⟨"a", 0, 0⟩] : List Segment) ≠ [] ∧ ∀ seg ∈ ([⟨"a", 0, 0⟩] : List Segment), seg.amount = 0) ∧
    (selectWinner [⟨"a", 0, 0⟩] [] (1/2)).1 = (eligibleOf [⟨"a", 0, 0⟩] []).head? :=
  ⟨⟨by decide, by decide⟩,
    (claim_C2_amended [⟨"a", 0, 0⟩] [] (1/2) (by decide) (by decide)).2.2⟩

/-- C8: the cumulative distributed total is monotonically non-decreasing
across every sequence of operations; it is incremented via
`addToTotalFees` exactly on a successful distribution with positive
distributed amount, and left unchanged by failed distributions,
non-positive (no-funds) outcomes, spins without distribution, and
reads. -/
theorem claim_C8_total_monotone (total : ℚ) (ops : List ServerOp) :
    total ≤ runOps total ops ∧
    (∀ d, 0 < d → applyOp total (.distributionDone true d) = addToTotalFees total d) ∧
    (∀ success d, ¬ 0 < d → applyOp total (.distributionDone success d) = total) ∧
    (∀ d, applyOp total (.distributionDone false d) = total) ∧
    applyOp total .spinOnly = total ∧
    applyOp total .readState = total := by
  refine ⟨runOps_le ops total, ?_, ?_, ?_, rfl, rfl⟩
  · intro d hd
    simp [applyOp, hd]
  · intro success d hd
    simp [applyOp, hd]
  · intro d
    simp [applyOp]

/-- Witness for C8 at a single successful distribution of amount 1. -/
theorem claim_C8_total_monotone_witness :
    (0 : ℚ) < 1 ∧ applyOp 0 (.distributionDone true 1) = addToTotalFees 0 1 :=
  ⟨by norm_num, (claim_C8_total_monotone 0 []).2.1 1 (by norm_num)⟩

set_option maxRecDepth 10000 in
/-- C4 counterexample: starting from an empty ledger, the 51st and the
52nd appends both receive sequence id 51 (the id is the current length
plus one, and the length is pinned at the capacity 50), so ids are not
strictly increasing across every sequence of appends. -/
theorem claim_C4_counterexample :
    idOfAppend MAX_HISTORY = idOfAppend (MAX_HISTORY + 1) ∧
    idOfAppend MAX_HISTORY = MAX_HISTORY + 1 := by
  constructor
  · decide
  · decide

/-- Unfolded form of `recordSpin` (the source let-bindings substituted and
the cons length computed). -/
lemma recordSpin_eq (w : Segment) (h : List SpinRecord) :
    recordSpin w h =
      (⟨h.length + 1, w.address, none⟩,
        if MAX_HISTORY < h.length + 1
        then ((⟨h.length + 1, w.address, none⟩ : SpinRecord) :: h).dropLast
        else ⟨h.length + 1, w.address, none⟩ :: h) := rfl

/-- C4 amended: each append assigns id = current length + 1 and keeps the
most recent `MAX_HISTORY` records, evicting the oldest from the back;
consequently ids increase strictly only while the ledger is below
capacity, and from the 51st append on every record receives id 51 (two
successive appends at capacity assign equal ids). -/
theorem claim_C4_amended (w w2 : Segment) (h : List SpinRecord)
    (hlen : h.length ≤ MAX_HISTORY) :
    (recordSpin w h).1.id = h.length + 1 ∧
    (recordSpin w h).2 = ((recordSpin w h).1 :: h).take MAX_HISTORY ∧
    (recordSpin w h).2.length = min (h.length + 1) MAX_HISTORY ∧
    (h.length < MAX_HISTORY →
      (recordSpin w2 (recordSpin w h).2).1.id = (recordSpin w h).1.id + 1) ∧
    (h.length = MAX_HISTORY →
      (recordSpin w2 (recordSpin w h).2).1.id = (recordSpin w h).1.id) := by
  have h1eq : (recordSpin w h).1 = ⟨h.length + 1, w.address, none⟩ := rfl
  have hid2 : ∀ l : List SpinRecord, (recordSpin w2 l).1.id = l.length + 1 := fun l => rfl
  by_cases hc : MAX_HISTORY < h.length + 1
  · have h50 : h.length = MAX_HISTORY := by omega
    have h2eq : (recordSpin w h).2 =
        ((⟨h.length + 1, w.address, none⟩ : SpinRecord) :: h).dropLast := by
      rw [recordSpin_eq, if_pos hc]
    have hlen2 : (recordSpin w h).2.length = MAX_HISTORY := by
      rw [h2eq, List.length_dropLast, List.length_cons]
      omega
    refine ⟨rfl, ?_, ?_, ?_, ?_⟩
    · rw [h1eq, h2eq, List.dropLast_eq_take, List.length_cons, Nat.add_sub_cancel, h50]
    · rw [hlen2]
      omega
    · intro hlt
      exact absurd hlt (by omega)
    · intro _
      rw [hid2, hlen2, h1eq]
      rw [h50]
  · have h2eq : (recordSpin w h).2 = ⟨h.length + 1, w.address, none⟩ :: h := by
      rw [recordSpin_eq, if_neg hc]
    have hlen2 : (recordSpin w h).2.length = h.length + 1 := by
      rw [h2eq, List.length_cons]
    refine ⟨rfl, ?_, ?_, ?_, ?_⟩
    · rw [h1eq, h2eq]
      rw [List.take_of_length_le (by rw [List.length_cons]; omega)]
    · rw [hlen2]
      omega
    · intro hlt
      rw [hid2, hlen2, h1eq]
    · intro habs
      omega

/-- Witness for C4 amended at the empty ledger. -/
theorem claim_C4_amended_witness :
    ([] : List SpinRecord).length ≤ MAX_HISTORY ∧
    (recordSpin dummySegment []).1.id = ([] : List SpinRecord).length + 1 :=
  ⟨by decide, (claim_C4_amended dummySegment dummySegment [] (by decide)).1⟩

/-- C3 counterexample: the largest-holder exclusion removes only the
first list entry, so when the same owner appears again further down the
list a segment carrying the largest holder address is still returned. -/
theorem claim_C3_counterexample :
    (([⟨"X", 100⟩, ⟨"X", 50⟩] : List Holder).head?.map Holder.owner = some "X") ∧
    ((processHoldersForWheel (exclusionSet none) [⟨"X", 100⟩, ⟨"X", 50⟩]).1.map
      Segment.address = ["X"]) := by
  constructor
  · rfl
  · rw [processHoldersForWheel]
    rw [if_neg (by decide)]
    have helig : eligibleHoldersOf (exclusionSet none) [⟨"X", 100⟩, ⟨"X", 50⟩] =
        [⟨"X", 50⟩] := by decide
    rw [helig]
    simp

/-- C3 amended: every segment built by the segment builder is free of the
fixed denylist addresses and of the operator address (once known), and
arises from an entry of the input after its first element; the first
element itself is never turned into a segment, but its address can still
appear on the wheel through a later entry with the same owner. -/
theorem claim_C3_exclusions (creator : Option String) (holders : List Holder) (seg : Segment)
    (hmem : seg ∈ (processHoldersForWheel (exclusionSet creator) holders).1) :
    seg.address ∉ EXCLUDED_ADDRESSES ∧
    (∀ c, creator = some c → seg.address ≠ c) ∧
    ∃ h0, h0 ∈ holders.drop 1 ∧ seg.address = h0.owner ∧ seg.amount = h0.amount := by
  by_cases hE : holders.isEmpty
  · rw [processHoldersForWheel, if_pos hE] at hmem
    simp at hmem
  · rw [processHoldersForWheel, if_neg hE] at hmem
    by_cases hEl : (eligibleHoldersOf (exclusionSet creator) holders).isEmpty
    · rw [if_pos hEl] at hmem
      simp at hmem
    · rw [if_neg hEl] at hmem
      simp only [List.mem_map] at hmem
      obtain ⟨h0, hh0, rfl⟩ := hmem
      have hfil := List.mem_filter.mp hh0
      have hdrop : h0 ∈ holders.drop 1 := hfil.1
      have hnotex : h0.owner ∉ exclusionSet creator := by
        have hp := hfil.2
        simp only [Bool.not_eq_true', ← Bool.not_eq_true] at hp
        intro hmem2
        exact hp (by simpa [List.elem_iff] using hmem2)
      rw [exclusionSet] at hnotex
      refine ⟨fun hx => hnotex (List.mem_append_left _ hx), ?_, h0, hdrop, rfl, rfl⟩
      intro c hcr hx
      apply hnotex
      apply List.mem_append_right
      rw [hcr, Option.toList_some]
      have hxo : h0.owner = c := hx
      rw [hxo]
      exact List.mem_singleton_self c

/-- Witness for C3 amended on a two-holder list with a known operator. -/
theorem claim_C3_exclusions_witness :
    ((⟨"alice", 50, 100⟩ : Segment) ∈
      (processHoldersForWheel (exclusionSet (some "op")) [⟨"big", 100⟩, ⟨"alice", 50⟩]).1) ∧
    ((⟨"alice", 50, 100⟩ : Segment).address ∉ EXCLUDED_ADDRESSES ∧
      (∀ c, (some "op" : Option String) = some c → (⟨"alice", 50, 100⟩ : Segment).address ≠ c) ∧
      ∃ h0, h0 ∈ ([⟨"big", 100⟩, ⟨"alice", 50⟩] : List Holder).drop 1 ∧
        (⟨"alice", 50, 100⟩ : Segment).address = h0.owner ∧
        (⟨"alice", 50, 100⟩ : Segment).amount = h0.amount) := by
  have hmem : (⟨"alice", 50, 100⟩ : Segment) ∈
      (processHoldersForWheel (exclusionSet (some "op")) [⟨"big", 100⟩, ⟨"alice", 50⟩]).1 := by
    rw [processHoldersForWheel, if_neg (by decide)]
    have helig : eligibleHoldersOf (exclusionSet (some "op"))
        [⟨"big", 100⟩, ⟨"alice", 50⟩] = [⟨"alice", 50⟩] := by decide
    rw [helig]
    rw [if_neg (by decide)]
    simp only [List.map, List.sum_cons, List.sum_nil, Prod.fst]
    norm_num
  exact ⟨hmem, claim_C3_exclusions (some "op") [⟨"big", 100⟩, ⟨"alice", 50⟩] _ hmem⟩

/-- C9: for every exclusion set and holder list with a non-empty,
positively-weighted eligible holder set, the built segment percentages
sum to exactly 100; in particular for holders A:1000000, B:400, C:100
(with A excluded as the largest holder) the eligible set is B, C with
percentages 80 and 20. -/
theorem claim_C9_percentages :
    (∀ (excluded : List String) (holders : List Holder),
      eligibleHoldersOf excluded holders ≠ [] →
      (∀ h0 ∈ eligibleHoldersOf excluded holders, 0 < h0.amount) →
      (((processHoldersForWheel excluded holders).1).map Segment.percentage).sum = 100) ∧
    ((processHoldersForWheel (exclusionSet none)
        [⟨"addrA", 1000000⟩, ⟨"addrB", 400⟩, ⟨"addrC", 100⟩]).1.map
        (fun seg => (seg.address, seg.percentage)) = [("addrB", 80), ("addrC", 20)]) := by
  constructor
  · intro excluded holders hne hpos
    have hHne : ¬ holders.isEmpty = true := by
      intro hnil
      rw [List.isEmpty_iff] at hnil
      exact hne (by simp [eligibleHoldersOf, hnil])
    rw [processHoldersForWheel, if_neg hHne,
      if_neg (by simpa [List.isEmpty_iff] using hne)]
    simp only [List.map_map]
    have hT : 0 < ((eligibleHoldersOf excluded holders).map Holder.amount).sum := by
      apply List.sum_pos
      · intro x hx
        obtain ⟨h0, hh0, rfl⟩ := List.mem_map.mp hx
        exact hpos h0 hh0
      · simpa using hne
    set T := ((eligibleHoldersOf excluded holders).map Holder.amount).sum with hTdef
    have hcomp : (Segment.percentage ∘ fun h0 : Holder =>
        ({ address := h0.owner, amount := h0.amount,
           percentage := h0.amount / T * 100 } : Segment)) =
        (fun h0 : Holder => h0.amount * (100 / T)) := by
      funext x
      show x.amount / T * 100 = x.amount * (100 / T)
      ring
    rw [hcomp, sum_map_amount_mul, ← hTdef, mul_comm, div_mul_cancel₀]
    exact ne_of_gt hT
  · rw [processHoldersForWheel, if_neg (by decide)]
    have helig : eligibleHoldersOf (exclusionSet none)
        [⟨"addrA", 1000000⟩, ⟨"addrB", 400⟩, ⟨"addrC", 100⟩] =
        [⟨"addrB", 400⟩, ⟨"addrC", 100⟩] := by decide
    rw [helig]
    rw [if_neg (by decide)]
    simp only [List.map, List.sum_cons, List.sum_nil, Prod.fst]
    norm_num

/-- Witness for C9 at the scenario holder list. -/
theorem claim_C9_percentages_witness :
    (eligibleHoldersOf (exclusionSet none)
        [⟨"addrA", 1000000⟩, ⟨"addrB", 400⟩, ⟨"addrC", 100⟩] ≠ []) ∧
    (((processHoldersForWheel (exclusionSet none)
        [⟨"addrA", 1000000⟩, ⟨"addrB", 400⟩, ⟨"addrC", 100⟩]).1).map
        Segment.percentage).sum = 100 :=
  ⟨by decide,
    claim_C9_percentages.1 (exclusionSet none)
      [⟨"addrA", 1000000⟩, ⟨"addrB", 400⟩, ⟨"addrC", 100⟩] (by decide)
      (by intro h0 hh0; fin_cases hh0 <;> norm_num)⟩

lemma isEmpty_eq_false_of_ne_nil {α : Type} {l : List α} (h : l ≠ []) :
    l.isEmpty = false := by
  cases l with
  | nil => exact absurd rfl h
  | cons a t => rfl

lemma eligibleOf_of_filter_empty {segs : List Segment} {recent : List String}
    (h : (segs.filter (fun seg => !(recent.contains seg.address))).isEmpty = true) :
    eligibleOf segs recent = segs := by
  unfold eligibleOf
  rw [if_pos h]

/-- C6: for every non-empty candidate list with positive total weight,
every cooldown exclusion set and every draw value, `selectWinner` returns
a winner that belongs to the eligible list (the exclusion-filtered subset,
which is the full input list when filtering leaves nothing) and hence to
the input list; when the accumulated-weight walk satisfies no candidate,
the last eligible candidate is returned rather than an error. -/
theorem claim_C6_membership (segs : List Segment) (recent : List String) (r : ℚ)
    (hne : segs ≠ []) (hpos : 0 < totalWeight segs) :
    ∃ w q1, selectWinner segs recent r = (some w, q1) ∧
      w ∈ eligibleOf segs recent ∧ w ∈ segs ∧
      ((segs.filter (fun seg => !(recent.contains seg.address))).isEmpty = true →
        eligibleOf segs recent = segs) ∧
      (findByCumulative (r * totalWeight (eligibleOf segs recent)) 0
          (eligibleOf segs recent) = none →
        (eligibleOf segs recent).getLast? = some w) := by
  obtain ⟨w, hmem, heq, hlast, _⟩ := selectWinner_char segs recent r hne
  exact ⟨w, _, heq, hmem, eligibleOf_subset hmem,
    fun hf => eligibleOf_of_filter_empty hf, hlast⟩

/-- Witness for C6 at a single positively-weighted candidate. -/
theorem claim_C6_membership_witness :
    (([⟨"a", 1, 100⟩] : List Segment) ≠ []) ∧ (0 < totalWeight [⟨"a", 1, 100⟩]) ∧
    ∃ w q1, selectWinner [⟨"a", 1, 100⟩] [] 0 = (some w, q1) ∧
      w ∈ eligibleOf [⟨"a", 1, 100⟩] [] ∧ w ∈ ([⟨"a", 1, 100⟩] : List Segment) ∧
      ((([⟨"a", 1, 100⟩] : List Segment).filter
          (fun seg => !(([] : List String).contains seg.address))).isEmpty = true →
        eligibleOf [⟨"a", 1, 100⟩] [] = [⟨"a", 1, 100⟩]) ∧
      (findByCumulative (0 * totalWeight (eligibleOf [⟨"a", 1, 100⟩] [])) 0
          (eligibleOf [⟨"a", 1, 100⟩] []) = none →
        (eligibleOf [⟨"a", 1, 100⟩] []).getLast? = some w) :=
  ⟨by decide, by norm_num [totalWeight],
    claim_C6_membership [⟨"a", 1, 100⟩] [] 0 (by decide) (by norm_num [totalWeight])⟩

/-- C5: after a selection returns a winner, the cooldown queue holds at
most two addresses, ends with the winner address (FIFO push at the back,
trim from the front of either the prior queue or the reset empty queue),
and the winner cannot win either of the next two draws as long as the
cooldown filter leaves a non-empty candidate pool at each of them. -/
theorem claim_C5_cooldown (segs : List Segment) (q : List String) (r : ℚ)
    (w : Segment) (q1 : List String)
    (hsel : selectWinner segs q r = (some w, q1)) :
    q1.length ≤ WINNER_COOLDOWN_SPINS ∧
    q1.getLast? = some w.address ∧
    (∃ base, (base = q ∨ base = []) ∧ q1 = trimCooldown (base ++ [w.address])) ∧
    (∀ segs2 r2, segs2.filter (fun seg => !(q1.contains seg.address)) ≠ [] →
      ∀ w2 q2, selectWinner segs2 q1 r2 = (some w2, q2) →
        w2.address ≠ w.address ∧
        ∀ segs3 r3, segs3.filter (fun seg => !(q2.contains seg.address)) ≠ [] →
          ∀ w3 q3, selectWinner segs3 q2 r3 = (some w3, q3) →
            w3.address ≠ w.address) := by
  have hne : segs ≠ [] := by
    intro hnil
    subst hnil
    simp [selectWinner] at hsel
  obtain ⟨w0, hmem0, heq0, _, _⟩ := selectWinner_char segs q r hne
  rw [heq0] at hsel
  rw [Prod.mk.injEq] at hsel
  obtain ⟨hsome, hq1⟩ := hsel
  have hww : w0 = w := Option.some.inj hsome
  subst hww
  have hlen : q1.length ≤ WINNER_COOLDOWN_SPINS := by
    rw [← hq1]
    exact trimCooldown_length _
  have hgl : q1.getLast? = some w0.address := by
    rw [← hq1]
    exact trimCooldown_append_getLast _ _
  have hwq1 : w0.address ∈ q1 := mem_of_getLast_eq hgl
  refine ⟨hlen, hgl, ?_, ?_⟩
  · refine ⟨_, ?_, hq1.symm⟩
    by_cases hf : (segs.filter (fun seg => !(q.contains seg.address))).isEmpty
    · right
      rw [if_pos hf]
    · left
      rw [if_neg hf]
  · intro segs2 r2 hfil2 w2 q2 hsel2
    have hne2 : segs2 ≠ [] := by
      intro hnil
      subst hnil
      simp at hfil2
    obtain ⟨w2c, hmem2, heq2, _, _⟩ := selectWinner_char segs2 q1 r2 hne2
    have hfE2 : (segs2.filter (fun seg => !(q1.contains seg.address))).isEmpty = false :=
      isEmpty_eq_false_of_ne_nil hfil2
    rw [heq2] at hsel2
    simp only [hfE2, Bool.false_eq_true, if_false] at hsel2
    rw [Prod.mk.injEq] at hsel2
    obtain ⟨h2some, h2q⟩ := hsel2
    have hww2 : w2c = w2 := Option.some.inj h2some
    subst hww2
    rw [eligibleOf_of_filter_ne_nil hfil2] at hmem2
    have hw2notin : w2c.address ∉ q1 := not_mem_recent_of_mem_filter hmem2
    have hq2eq : q2 = trimCooldown (q1 ++ [w2c.address]) := h2q.symm
    have hwq2 : w0.address ∈ q2 := by
      rw [hq2eq]
      exact mem_trim_append_of_getLast _ hlen hgl
    refine ⟨fun habs => hw2notin (habs ▸ hwq1), ?_⟩
    intro segs3 r3 hfil3 w3 q3 hsel3
    have hne3 : segs3 ≠ [] := by
      intro hnil
      subst hnil
      simp at hfil3
    obtain ⟨w3c, hmem3, heq3, _, _⟩ := selectWinner_char segs3 q2 r3 hne3
    have hfE3 : (segs3.filter (fun seg => !(q2.contains seg.address))).isEmpty = false :=
      isEmpty_eq_false_of_ne_nil hfil3
    rw [heq3] at hsel3
    simp only [hfE3, Bool.false_eq_true, if_false] at hsel3
    rw [Prod.mk.injEq] at hsel3
    obtain ⟨h3some, _⟩ := hsel3
    have hww3 : w3c = w3 := Option.some.inj h3some
    subst hww3
    rw [eligibleOf_of_filter_ne_nil hfil3] at hmem3
    have hw3notin : w3c.address ∉ q2 := not_mem_recent_of_mem_filter hmem3
    exact fun habs => hw3notin (habs ▸ hwq2)

/-- Witness for C5 at a one-candidate selection. -/
theorem claim_C5_cooldown_witness :
    (selectWinner [⟨"a", 1, 100⟩] [] 0 = (some ⟨"a", 1, 100⟩, ["a"])) ∧
    (["a"] : List String).getLast? = some (⟨"a", 1, 100⟩ : Segment).address := by
  have hs : selectWinner [⟨"a", 1, 100⟩] [] 0 = (some ⟨"a", 1, 100⟩, ["a"]) := by
    simp [selectWinner, eligibleOf, totalWeight, findByCumulative, trimCooldown,
      WINNER_COOLDOWN_SPINS]
  exact ⟨hs, (claim_C5_cooldown _ _ _ _ _ hs).2.1⟩

lemma segmentDegrees_get :
    ∀ (segs : List Segment) (cur : ℚ) (i : ℕ) (hi : i < segs.length),
      ∃ d, (segmentDegrees cur segs).get? i = some d ∧
        d.stop = d.start + (segs.get ⟨i, hi⟩).percentage / 100 * 360 ∧
        d.center = d.start + ((segs.get ⟨i, hi⟩).percentage / 100 * 360) / 2 := by
  intro segs
  induction segs with
  | nil =>
    intro cur i hi
    simp at hi
  | cons seg rest ih =>
    intro cur i hi
    cases i with
    | zero =>
      refine ⟨⟨cur, cur + seg.percentage / 100 * 360,
        cur + (seg.percentage / 100 * 360) / 2⟩, rfl, by simp, by simp⟩
    | succ n =>
      have hn : n < rest.length := by
        simpa using hi
      obtain ⟨d, hd, hstop, hcenter⟩ := ih (cur + seg.percentage / 100 * 360) n hn
      exact ⟨d, by simpa [segmentDegrees] using hd, hstop, hcenter⟩

/-- C10: for an empty segment list or a negative winner index the wheel
stop angle is 0; for a valid index into a percentage-complete wheel whose
winning segment has positive percentage, and for every cosmetic draw in
[0, 1), the returned angle lies strictly inside the winning segment arc,
within the central 60 percent of the segment around its midpoint. -/
theorem claim_C10_winning_degree :
    (∀ (segs : List Segment) (j : ℤ) (u : ℚ),
      segs = [] ∨ j < 0 → calculateWinningDegree segs j u = some 0) ∧
    (∀ (segs : List Segment) (i : ℕ) (u : ℚ) (hi : i < segs.length),
      (segs.map Segment.percentage).sum = 100 →
      0 < (segs.get ⟨i, hi⟩).percentage →
      0 ≤ u → u < 1 →
      ∃ d θ, (segmentDegrees 0 segs).get? i = some d ∧
        calculateWinningDegree segs (i : ℤ) u = some θ ∧
        d.start < θ ∧ θ < d.stop ∧
        d.center - (3/10) * (d.stop - d.start) ≤ θ ∧
        θ < d.center + (3/10) * (d.stop - d.start)) := by
  constructor
  · intro segs j u h
    cases h with
    | inl hnil =>
      subst hnil
      simp [calculateWinningDegree]
    | inr hneg =>
      simp [calculateWinningDegree, hneg]
  · intro segs i u hi hsum hpos hu0 hu1
    have hne : segs.isEmpty = false := by
      cases segs with
      | nil => simp at hi
      | cons a t => rfl
    have hcond : ¬ (segs.isEmpty = true ∨ (i : ℤ) < 0) := by
      rw [hne]
      simp only [Bool.false_eq_true, false_or, not_lt]
      exact Int.natCast_nonneg i
    obtain ⟨d, hd, hstop, hcenter⟩ := segmentDegrees_get segs 0 i hi
    have hcalc : calculateWinningDegree segs (i : ℤ) u =
        some (d.center + (u - 1/2) * (d.stop - d.start) * (6/10)) := by
      rw [calculateWinningDegree, if_neg hcond, Int.toNat_natCast, hd]
    set P := (segs.get ⟨i, hi⟩).percentage / 100 * 360 with hPdef
    have hP : 0 < P := by
      rw [hPdef]
      exact mul_pos (div_pos hpos (by norm_num)) (by norm_num)
    have h1u : 0 < 1 - u := by linarith
    have huP : 0 ≤ u * P := mul_nonneg hu0 hP.le
    have hPu : 0 < P * (1 - u) := mul_pos hP h1u
    refine ⟨d, d.center + (u - 1/2) * (d.stop - d.start) * (6/10), hd, hcalc, ?_, ?_, ?_, ?_⟩
    · rw [hcenter, hstop]
      nlinarith [hP, huP]
    · rw [hcenter, hstop]
      nlinarith [hP, hPu]
    · rw [hcenter, hstop]
      nlinarith [hP, huP]
    · rw [hcenter, hstop]
      nlinarith [hP, hPu]

/-- Witness for C10 on a two-segment wheel at index 1 and draw 1/4. -/
theorem claim_C10_winning_degree_witness :
    ((([⟨"a", 0, 40⟩, ⟨"b", 0, 60⟩] : List Segment).map Segment.percentage).sum = 100) ∧
    ∃ d θ, (segmentDegrees 0 [⟨"a", 0, 40⟩, ⟨"b", 0, 60⟩]).get? 1 = some d ∧
      calculateWinningDegree [⟨"a", 0, 40⟩, ⟨"b", 0, 60⟩] ((1 : ℕ) : ℤ) (1/4) = some θ ∧
      d.start < θ ∧ θ < d.stop ∧
      d.center - (3/10) * (d.stop - d.start) ≤ θ ∧
      θ < d.center + (3/10) * (d.stop - d.start) :=
  ⟨by norm_num,
    claim_C10_winning_degree.2 [⟨"a", 0, 40⟩, ⟨"b", 0, 60⟩] 1 (1/4)
      (by norm_num) (by norm_num) (by norm_num) (by norm_num) (by norm_num)⟩

/-- C10 counterexample: the claim quantifies over every segment list whose
percentages sum to 100 and every index in range; for the list with a
zero-percentage first segment the angle returned for index 0 is the
boundary point of a degenerate (empty) arc, hence not strictly inside
that arc. -/
theorem claim_C10_counterexample :
    ((([⟨"a", 0, 0⟩, ⟨"b", 0, 100⟩] : List Segment).map Segment.percentage).sum = 100) ∧
    ¬ (∀ θ : ℚ, calculateWinningDegree [⟨"a", 0, 0⟩, ⟨"b", 0, 100⟩] 0 (1/2) = some θ →
        ∃ d, (segmentDegrees 0 [⟨"a", 0, 0⟩, ⟨"b", 0, 100⟩]).get? 0 = some d ∧
          d.start < θ ∧ θ < d.stop) := by
  constructor
  · norm_num
  · intro hcl
    have hcomp : (segmentDegrees 0 [⟨"a", 0, 0⟩, ⟨"b", 0, 100⟩]).get? 0 =
        some ⟨0, 0, 0⟩ := by
      norm_num [segmentDegrees]
    have hcalc : calculateWinningDegree [⟨"a", 0, 0⟩, ⟨"b", 0, 100⟩] 0 (1/2) = some 0 := by
      rw [calculateWinningDegree, if_neg (by norm_num)]
      rw [show ((0 : ℤ)).toNat = 0 from rfl, hcomp]
      norm_num
    obtain ⟨d, hd, h1, h2⟩ := hcl 0 hcalc
    rw [hcomp] at hd
    have hdval : d = ⟨0, 0, 0⟩ := (Option.some.inj hd).symm
    subst hdval
    exact absurd h1 (lt_irrefl 0)

end WheelSpin
